import Mathlib

/-!
A shallow embedding, in Lean 4, of the aggregation-and-insight core of the
GenSight-Issue-Insight-Automator repository (src/aggregator.py and
src/genai_insights.py), together with theorems settling the specification
claims about that core.

Python strings are modelled as Lean `String`; spreadsheet cells that may hold
a non-string value (pandas NaN) are modelled by `Cell`; pandas timestamps are
modelled by `Date`; pandas DataFrames are modelled by lists of rows plus
booleans recording which optional columns are present.  Python's stable
`sorted`/`list.sort` is modelled by an insertion sort (`sortBy`), and dict /
`value_counts` tallies by association lists in first-appearance order.
-/

namespace GenSight

/-! ## String helpers (models of Python str operations) -/

/-- Model of Python `k in t` for strings: `k` occurs as a contiguous
substring of `t`. -/
def substrOf (k t : String) : Bool :=
  decide (k.data <:+: t.data)

/-- Model of Python `str.lower()`, character by character. -/
def pyLower (s : String) : String :=
  String.mk (s.data.map Char.toLower)

/-- Model of Python `str.upper()`, character by character. -/
def pyUpper (s : String) : String :=
  String.mk (s.data.map Char.toUpper)

/-- Model of Python `str.strip()`: remove leading and trailing whitespace. -/
def pyStrip (s : String) : String :=
  String.mk (((s.data.dropWhile Char.isWhitespace).reverse.dropWhile
    Char.isWhitespace).reverse)

/-- One step of Python `str.title()`: the boolean says whether the previous
character was alphabetic. -/
def pyTitleAux : Bool → List Char → List Char
  | _, [] => []
  | prevAlpha, c :: cs =>
    (if c.isAlpha then (if prevAlpha then c.toLower else c.toUpper) else c)
      :: pyTitleAux c.isAlpha cs

/-- Model of Python `str.title()`: the first character of each alphabetic run
is upper-cased and the rest lower-cased. -/
def pyTitle (s : String) : String :=
  String.mk (pyTitleAux false s.data)

/-- Model of Python `"sep".join(parts)`. -/
def joinBy (sep : String) : List String → String
  | [] => ""
  | [x] => x
  | x :: y :: xs => x ++ sep ++ joinBy sep (y :: xs)

/-! ## Generic stable insertion sort, modelling Python's stable `sorted` -/

/-- Insert `x` into `l` before the first element `y` with `le x y`.  Folded
over a list this gives a stable sort, the model of Python `sorted`. -/
def insertSortedBy (le : α → α → Bool) (x : α) : List α → List α
  | [] => [x]
  | y :: ys => if le x y then x :: y :: ys else y :: insertSortedBy le x ys

/-- Stable insertion sort by the boolean relation `le`. -/
def sortBy (le : α → α → Bool) (l : List α) : List α :=
  l.foldr (insertSortedBy le) []

theorem perm_insertSortedBy (le : α → α → Bool) (x : α) (l : List α) :
    (insertSortedBy le x l).Perm (x :: l) := by
  induction l with
  | nil => simp [insertSortedBy]
  | cons y ys ih =>
    simp only [insertSortedBy]
    by_cases h : le x y
    · simp [h]
    · simp only [h, if_neg]
      exact (ih.cons y).trans (List.Perm.swap x y ys)

theorem perm_sortBy (le : α → α → Bool) (l : List α) :
    (sortBy le l).Perm l := by
  induction l with
  | nil => simp [sortBy]
  | cons x xs ih =>
    simp only [sortBy, List.foldr]
    exact (perm_insertSortedBy le x _).trans (ih.cons x)

theorem pairwise_insertSortedBy (le : α → α → Bool)
    (htot : ∀ a b, le a b = true ∨ le b a = true)
    (htrans : ∀ a b c, le a b = true → le b c = true → le a c = true)
    (x : α) (l : List α) (hl : l.Pairwise (fun a b => le a b = true)) :
    (insertSortedBy le x l).Pairwise (fun a b => le a b = true) := by
  induction l with
  | nil => simp [insertSortedBy]
  | cons y ys ih =>
    simp only [insertSortedBy]
    rcases List.pairwise_cons.mp hl with ⟨hy, hys⟩
    by_cases h : le x y
    · simp only [h, if_pos rfl]
      refine List.pairwise_cons.mpr ⟨?_, hl⟩
      intro b hb
      rcases hb with _ | hb
      · exact h
      · exact htrans x y b h (hy _ (by assumption))
    · simp only [h, if_neg Bool.false_ne_true]
      refine List.pairwise_cons.mpr ⟨?_, ih hys⟩
      intro b hb
      have hmem := (perm_insertSortedBy le x ys).mem_iff.mp hb
      rcases List.mem_cons.mp hmem with hcase | hcase
      · subst hcase
        rcases htot y b with hyb | hby
        · exact hyb
        · cases h (by simpa using hby)
      · exact hy _ hcase

theorem pairwise_sortBy (le : α → α → Bool)
    (htot : ∀ a b, le a b = true ∨ le b a = true)
    (htrans : ∀ a b c, le a b = true → le b c = true → le a c = true)
    (l : List α) :
    (sortBy le l).Pairwise (fun a b => le a b = true) := by
  induction l with
  | nil => simp [sortBy]
  | cons x xs ih =>
    simp only [sortBy, List.foldr] at ih ⊢
    exact pairwise_insertSortedBy le htot htrans x _ ih

/-! ## Cells and the keyword classifier (src/aggregator.py) -/

/-- A spreadsheet cell as the classifier may receive it: a Python string, or
a non-string value (pandas NaN and friends). -/
inductive Cell
  | str (s : String)
  | na
deriving DecidableEq, Repr

/-- Model of Python `str(cell)` as applied by `.astype(str)`: a missing value
renders as the string `"nan"`. -/
def cellToStr : Cell → String
  | .str s => s
  | .na => "nan"

/-- The ordered category table `CATEGORIES` of src/aggregator.py.  Python
dicts iterate in declared order, so a list of pairs is a faithful model. -/
def CATEGORIES : List (String × List String) :=
  [ ("Citrix", ["citrix", "vdi"]),
    ("MFA", ["mfa", "otp", "authenticator", "notification"]),
    ("Endpoint Compliance",
      ["endpoint", "compliance", "dlp", "edr", "tanium", "pmc",
       "encryption", "bitlocker", "hostname", "sensor", "sense"]),
    ("Access/Password",
      ["password", "access", "unlock", "reset", "sspr", "credential"]),
    ("Network/VPN",
      ["vpn", "zscaler", "network", "anyconnect", "proxy", "isp"]) ]

/-- Does the category `p` match the (already lower-cased) text `t`: is some
keyword of `p` a substring of `t`?  Models `any(k in t for k in keys)`. -/
def categoryMatches (t : String) (p : String × List String) : Bool :=
  p.2.any (fun k => substrOf k t)

/-- The `for cat, keys in CATEGORIES.items()` loop of `classify_issue`. -/
def classifyLoop : List (String × List String) → String → String
  | [], _ => "Other"
  | (cat, keys) :: rest, t =>
    if keys.any (fun k => substrOf k t) then cat else classifyLoop rest t

/-- `classify_issue` of src/aggregator.py: non-strings map to `"Other"`,
strings are lower-cased and run through the category loop. -/
def classify_issue : Cell → String
  | .na => "Other"
  | .str text => classifyLoop CATEGORIES (pyLower text)

/-- The full set of labels `classify_issue` can produce: the declared
category labels plus the catch-all `"Other"`. -/
def issueTypeLabels : List String :=
  CATEGORIES.map Prod.fst ++ ["Other"]

theorem classifyLoop_eq_find (cats : List (String × List String)) (t : String) :
    classifyLoop cats t =
      ((cats.find? (categoryMatches t)).map Prod.fst).getD "Other" := by
  induction cats with
  | nil => simp [classifyLoop]
  | cons p rest ih =>
    obtain ⟨cat, keys⟩ := p
    by_cases h : categoryMatches t (cat, keys)
    · simp only [classifyLoop, List.find?, h]
      simpa [categoryMatches] using congrArg (fun b => if b then cat else classifyLoop rest t) h
    · have h' : (categoryMatches t (cat, keys)) = false := by
        simpa using h
      simp only [classifyLoop, List.find?, h']
      have hk : (keys.any (fun k => substrOf k t)) = false := by
        simpa [categoryMatches] using h'
      simp [hk, ih]

theorem classifyLoop_mem (cats : List (String × List String)) (t : String) :
    classifyLoop cats t ∈ cats.map Prod.fst ++ ["Other"] := by
  induction cats with
  | nil => simp [classifyLoop]
  | cons p rest ih =>
    obtain ⟨cat, keys⟩ := p
    simp only [classifyLoop]
    by_cases h : (keys.any (fun k => substrOf k t)) = true
    · simp [h]
    · simp only [Bool.not_eq_true] at h
      simp only [h]
      simp only [List.map_cons, List.cons_append, List.mem_cons]
      right
      simpa using ih

/-- C1.  `classify_issue` is a total function (it cannot throw): a non-string
cell yields the catch-all `"Other"`, and a string cell is lower-cased and
mapped to the first declared category one of whose keywords occurs as a
substring, with `"Other"` when no keyword matches; the result is always one
of the declared labels or `"Other"`. -/
theorem classify_first_match_or_other (text : String) :
    classify_issue (.str text) =
      ((CATEGORIES.find? (categoryMatches (pyLower text))).map Prod.fst).getD "Other"
    ∧ classify_issue (.str text) ∈ issueTypeLabels
    ∧ classify_issue .na = "Other" := by
  refine ⟨?_, ?_, rfl⟩
  · simpa [classify_issue] using classifyLoop_eq_find CATEGORIES (pyLower text)
  · simpa [classify_issue, issueTypeLabels] using
      classifyLoop_mem CATEGORIES (pyLower text)

/-- C2, counterexample.  The issue description "VPN access reset via SSPR"
is not classified as "Network/VPN": the keyword `"access"` of the earlier
declared category "Access/Password" already matches. -/
theorem vpn_sspr_not_network_vpn :
    classify_issue (.str "VPN access reset via SSPR") ≠ "Network/VPN" := by
  decide

/-- C2amended.  For the issue description "VPN access reset via SSPR",
`classify_issue` returns "Access/Password", this being the first declared
category whose keyword set matches the lower-cased text. -/
theorem vpn_sspr_is_access_password :
    classify_issue (.str "VPN access reset via SSPR") = "Access/Password"
    ∧ (CATEGORIES.find? (categoryMatches "vpn access reset via sspr")).map Prod.fst
        = some "Access/Password" := by
  constructor
  · decide
  · decide

/-! ## Tallies: models of `value_counts().to_dict()` and dict counters -/

/-- One step of counting occurrences: record `x` in the association list
`acc`, keeping first-appearance order of the keys. -/
def bump [DecidableEq α] (acc : List (α × ℕ)) (x : α) : List (α × ℕ) :=
  if acc.any (fun p => decide (p.1 = x)) then
    acc.map (fun p => if p.1 = x then (p.1, p.2 + 1) else p)
  else acc ++ [(x, 1)]

/-- Occurrence counts of the elements of `l`, keys in first-appearance
order. -/
def tally [DecidableEq α] (l : List α) : List (α × ℕ) :=
  l.foldl bump []

/-- Model of pandas `Series.value_counts()` (as read through `.to_dict()`
or positionally): occurrence counts sorted by count, descending, ties in
first-appearance order. -/
def valueCounts [DecidableEq α] (l : List α) : List (α × ℕ) :=
  sortBy (fun a b => decide (b.2 ≤ a.2)) (tally l)

/-- Model of Python `counts.get(k, 0)` on a counting dict. -/
def lookupCount (l : List (String × ℕ)) (k : String) : ℕ :=
  match l.find? (fun p => p.1 == k) with
  | some p => p.2
  | none => 0

theorem bump_bound [DecidableEq α] (acc : List (α × ℕ)) (x : α) (n : ℕ)
    (h : ∀ p ∈ acc, p.2 ≤ n) : ∀ p ∈ bump acc x, p.2 ≤ n + 1 := by
  intro q hq
  unfold bump at hq
  by_cases hx : acc.any (fun p => decide (p.1 = x)) = true
  · rw [if_pos hx] at hq
    obtain ⟨r, hr, hrq⟩ := List.mem_map.mp hq
    by_cases hr1 : r.1 = x
    · rw [if_pos hr1] at hrq
      subst hrq
      exact Nat.succ_le_succ (h r hr)
    · rw [if_neg hr1] at hrq
      subst hrq
      exact Nat.le_succ_of_le (h r hr)
  · rw [if_neg hx] at hq
    rcases List.mem_append.mp hq with hq | hq
    · exact Nat.le_succ_of_le (h q hq)
    · rw [List.mem_singleton.mp hq]
      exact Nat.succ_le_succ (Nat.zero_le n)

theorem foldl_bump_bound [DecidableEq α] (l : List α) :
    ∀ (acc : List (α × ℕ)) (n : ℕ), (∀ p ∈ acc, p.2 ≤ n) →
      ∀ p ∈ l.foldl bump acc, p.2 ≤ n + l.length := by
  induction l with
  | nil =>
    intro acc n h p hp
    rw [List.foldl_nil] at hp
    exact le_trans (h p hp) (Nat.le_add_right n _)
  | cons x xs ih =>
    intro acc n h p hp
    rw [List.foldl_cons] at hp
    have hb := ih (bump acc x) (n + 1) (bump_bound acc x n h) p hp
    have : n + 1 + xs.length = n + (x :: xs).length := by
      simp [List.length_cons]
      omega
    omega

/-- Every count in a `value_counts` tally is at most the number of tallied
elements. -/
theorem valueCounts_le [DecidableEq α] (l : List α) :
    ∀ p ∈ valueCounts l, p.2 ≤ l.length := by
  intro p hp
  have hp' : p ∈ tally l :=
    (perm_sortBy (fun a b : α × ℕ => decide (b.2 ≤ a.2)) (tally l)).mem_iff.mp
      (by simpa [valueCounts] using hp)
  simpa using foldl_bump_bound l [] 0 (by simp) p hp'

theorem lookupCount_le (l : List (String × ℕ)) (k : String) (n : ℕ)
    (h : ∀ p ∈ l, p.2 ≤ n) : lookupCount l k ≤ n := by
  unfold lookupCount
  cases hf : l.find? (fun p => p.1 == k) with
  | none => exact Nat.zero_le n
  | some p => exact h p (List.mem_of_find?_eq_some hf)

/-! ## Dates, ticket rows and data frames -/

/-- A calendar date, the model of the (already parsed) pandas timestamps
the loader stores in the `start`, `end` and `date` columns. -/
structure Date where
  year : ℕ
  month : ℕ
  day : ℕ
deriving DecidableEq, Repr

/-- Lexicographic comparison of dates, the order pandas sorts them in. -/
def dateLe (a b : Date) : Bool :=
  decide (a.year < b.year) ||
    (a.year == b.year &&
      (decide (a.month < b.month) ||
        (a.month == b.month && decide (a.day ≤ b.day))))

/-- One row of the loader's normalized ticket table, restricted to the
columns the aggregation-and-insight core reads.  `stop` models the `end`
column (`end` is a Lean keyword). -/
structure TicketRow where
  month_label : String
  issue : Cell
  status : Cell
  engineer : Cell
  start : Option Date
  stop : Option Date
  date : Option Date
deriving DecidableEq, Repr

/-- The input DataFrame of `generate_monthly_summary`: its rows, plus which
of the optional columns (`status`, `engineer`, `date`) are present.  The
`issue` and `month_label` columns are mandatory. -/
structure InputFrame where
  rows : List TicketRow
  hasStatus : Bool
  hasEngineer : Bool
  hasDate : Bool
deriving DecidableEq, Repr

/-- Status normalization of the source: `astype(str).str.strip().str.title()`. -/
def normStatus (c : Cell) : String := pyTitle (pyStrip (cellToStr c))

/-- Engineer normalization of the source: `astype(str).str.strip()`. -/
def normEngineer (c : Cell) : String := pyStrip (cellToStr c)

/-- String comparison used where pandas `groupby` sorts its keys. -/
def strLe (a b : String) : Bool := decide (a ≤ b)

/-- Lexicographic comparison on `(month_label, date)` group keys. -/
def monthDateLe (a b : String × Date) : Bool :=
  decide (a.1 < b.1) || (a.1 == b.1 && dateLe a.2 b.2)

/-- The output of `generate_monthly_summary`: the per-dimension counts and
the annotated table (each row paired with its derived issue type). -/
structure MonthlySummary where
  by_status : List (String × ℕ)
  by_engineer : List (String × ℕ)
  by_issue_type : List (String × ℕ)
  by_month : List (String × ℕ)
  daily : List ((String × Date) × ℕ)
  raw : List (TicketRow × String)

/-- `generate_monthly_summary` of src/aggregator.py.  Status and engineer
values are normalized when their column exists (else the empty series);
every row is annotated with `classify_issue` of its issue; counts are taken
by month label (groupby, keys ascending), by status, engineer and issue
type (`value_counts`), and by `(month_label, date)` when the `date` column
exists (groupby drops rows with a missing date). -/
def generate_monthly_summary (df : InputFrame) : MonthlySummary :=
  let statusNorm :=
    if df.hasStatus then df.rows.map (fun r => normStatus r.status) else []
  let engineerNorm :=
    if df.hasEngineer then df.rows.map (fun r => normEngineer r.engineer) else []
  let localRows := df.rows.map (fun r => (r, classify_issue r.issue))
  let by_month :=
    sortBy (fun a b => strLe a.1 b.1)
      (tally (localRows.map (fun x => x.1.month_label)))
  let daily :=
    if df.hasDate then
      sortBy (fun a b => monthDateLe a.1 b.1)
        (tally (localRows.filterMap
          (fun x => x.1.date.map (fun d => (x.1.month_label, d)))))
    else []
  { by_status := valueCounts statusNorm
    by_engineer := valueCounts engineerNorm
    by_issue_type := valueCounts (localRows.map (fun x => x.2))
    by_month := by_month
    daily := daily
    raw := localRows }

/-! ## C3: the issue-type tags partition each month -/

theorem classify_issue_mem (c : Cell) : classify_issue c ∈ issueTypeLabels := by
  cases c with
  | na => simp [classify_issue, issueTypeLabels]
  | str s =>
    simpa [classify_issue, issueTypeLabels] using
      classifyLoop_mem CATEGORIES (pyLower s)

theorem sum_indicator_zero (labels : List String) (v : String)
    (hv : v ∉ labels) :
    (labels.map (fun c => if v = c then (1 : ℕ) else 0)).sum = 0 := by
  induction labels with
  | nil => simp
  | cons c cs ih =>
    have hvc : ¬ v = c := fun h => hv (h ▸ List.mem_cons_self c cs)
    have hvcs : v ∉ cs := fun h => hv (List.mem_cons_of_mem c h)
    simp [hvc, ih hvcs]

theorem sum_indicator_one (labels : List String) (v : String)
    (hnd : labels.Nodup) (hv : v ∈ labels) :
    (labels.map (fun c => if v = c then (1 : ℕ) else 0)).sum = 1 := by
  induction labels with
  | nil => cases hv
  | cons c cs ih =>
    rcases List.nodup_cons.mp hnd with ⟨hc, hcs⟩
    by_cases hvc : v = c
    · subst hvc
      simp [sum_indicator_zero cs v hc]
    · have hvcs : v ∈ cs := by
        rcases List.mem_cons.mp hv with h | h
        · cases hvc h
        · exact h
      simp [hvc, ih hcs hvcs]

theorem partition_sum (xs : List α) (f : α → String) (labels : List String)
    (hnd : labels.Nodup) (hmem : ∀ x ∈ xs, f x ∈ labels) :
    (labels.map (fun c => (xs.filter (fun x => f x == c)).length)).sum
      = xs.length := by
  induction xs with
  | nil => simp
  | cons a xs ih =>
    have hmem' : ∀ x ∈ xs, f x ∈ labels := fun x hx =>
      hmem x (List.mem_cons_of_mem a hx)
    have hsplit : ∀ c : String,
        ((a :: xs).filter (fun x => f x == c)).length
          = (if f a = c then 1 else 0) + (xs.filter (fun x => f x == c)).length := by
      intro c
      by_cases h : f a = c
      · simp only [List.filter_cons, h]
        simp
        omega
      · simp [List.filter_cons, h]
    calc (labels.map (fun c => ((a :: xs).filter (fun x => f x == c)).length)).sum
        = (labels.map (fun c =>
            (if f a = c then 1 else 0) + (xs.filter (fun x => f x == c)).length)).sum := by
          exact congrArg List.sum (List.map_congr_left (fun c _ => hsplit c))
      _ = (labels.map (fun c => if f a = c then 1 else 0)).sum
            + (labels.map (fun c => (xs.filter (fun x => f x == c)).length)).sum := by
          exact List.sum_map_add
      _ = 1 + xs.length := by
          rw [sum_indicator_one labels (f a) hnd (hmem a (List.mem_cons_self a xs)), ih hmem']
      _ = (a :: xs).length := by
          simp [Nat.add_comm]

/-- C3.  The aggregator annotates every ticket with exactly one issue-type
tag — its annotated table is exactly the input rows, each paired with
`classify_issue` of its issue — and, for every month label `m`, the
per-issue-type counts restricted to month `m` sum to month `m`'s total
ticket count. -/
theorem aggregator_month_partition (df : InputFrame) (m : String) :
    (generate_monthly_summary df).raw
        = df.rows.map (fun r => (r, classify_issue r.issue))
    ∧ (issueTypeLabels.map (fun c =>
          (((generate_monthly_summary df).raw.filter
              (fun x => x.1.month_label == m)).filter
            (fun x => x.2 == c)).length)).sum
        = ((generate_monthly_summary df).raw.filter
            (fun x => x.1.month_label == m)).length := by
  constructor
  · rfl
  · refine partition_sum _ (fun x : TicketRow × String => x.2) issueTypeLabels
      (by decide) ?_
    intro x hx
    have hx' : x ∈ (generate_monthly_summary df).raw := List.mem_of_mem_filter hx
    have hx'' : x ∈ df.rows.map (fun r => (r, classify_issue r.issue)) := hx'
    obtain ⟨r, _, hrx⟩ := List.mem_map.mp hx''
    subst hrx
    exact classify_issue_mem r.issue

/-- C8.  A missing optional column is never fatal to the aggregator and
yields an empty aggregate for that dimension: without a `status` column
`by_status` is the empty mapping, without an `engineer` column
`by_engineer` is empty, without a `date` column `daily` is empty; and the
aggregator always produces an annotated row for every input row. -/
theorem aggregator_missing_columns (rows : List TicketRow)
    (hst heng hdate : Bool) :
    (generate_monthly_summary ⟨rows, false, heng, hdate⟩).by_status = []
    ∧ (generate_monthly_summary ⟨rows, hst, false, hdate⟩).by_engineer = []
    ∧ (generate_monthly_summary ⟨rows, hst, heng, false⟩).daily = []
    ∧ (generate_monthly_summary ⟨rows, hst, heng, hdate⟩).raw.length
        = rows.length := by
  refine ⟨rfl, rfl, rfl, ?_⟩
  simp [generate_monthly_summary]

/-! ## Month labels and the previous-month lookup (src/genai_insights.py) -/

/-- The `mon_map` of `_label_to_year_month`. -/
def monMap : List (String × ℕ) :=
  [("JAN", 1), ("FEB", 2), ("MAR", 3), ("APR", 4),
   ("MAY", 5), ("JUN", 6), ("JUL", 7), ("AUG", 8),
   ("SEP", 9), ("OCT", 10), ("NOV", 11), ("DEC", 12)]

/-- Value of a string of decimal digit characters. -/
def digitsToNat (cs : List Char) : ℕ :=
  cs.foldl (fun acc c => 10 * acc + (c.toNat - 48)) 0

/-- Is `c` an upper-case ASCII letter (the `[A-Z]` regex class)? -/
def isUpperAZ (c : Char) : Bool :=
  decide ('A' ≤ c) && decide (c ≤ 'Z')

/-- `_label_to_year_month` of src/genai_insights.py: upper-case and strip
the label, require the shape `[A-Z]{3}\d{4}`, look the month abbreviation
up in `mon_map`; yields `(year, month-number)` or nothing. -/
def _label_to_year_month (label : String) : Option (ℕ × ℕ) :=
  let cs := (pyStrip (pyUpper label)).data
  if cs.length == 7 && (cs.take 3).all isUpperAZ && (cs.drop 3).all Char.isDigit
  then
    match monMap.find? (fun p => p.1 == String.mk (cs.take 3)) with
    | some p => some (digitsToNat (cs.drop 3), p.2)
    | none => none
  else none

/-- Strict (year, month) order on parsed labels. -/
def ymLt (a b : ℕ × ℕ) : Prop :=
  a.1 < b.1 ∨ (a.1 = b.1 ∧ a.2 < b.2)

/-- Reflexive (year, month) order on parsed labels. -/
def ymLe (a b : ℕ × ℕ) : Prop :=
  ymLt a b ∨ a = b

instance (a b : ℕ × ℕ) : Decidable (ymLt a b) := by
  unfold ymLt
  exact inferInstance

instance (a b : ℕ × ℕ) : Decidable (ymLe a b) := by
  unfold ymLe
  exact inferInstance

theorem ymLt_irrefl (a : ℕ × ℕ) : ¬ ymLt a a := by
  obtain ⟨a1, a2⟩ := a
  simp only [ymLt]
  omega

theorem ymLt_asymm (a b : ℕ × ℕ) : ymLt a b → ¬ ymLt b a := by
  obtain ⟨a1, a2⟩ := a
  obtain ⟨b1, b2⟩ := b
  simp only [ymLt]
  omega

theorem ymLt_trans (a b c : ℕ × ℕ) : ymLt a b → ymLt b c → ymLt a c := by
  obtain ⟨a1, a2⟩ := a
  obtain ⟨b1, b2⟩ := b
  obtain ⟨c1, c2⟩ := c
  simp only [ymLt]
  omega

theorem ymLe_of_not_lt (a b : ℕ × ℕ) : ¬ ymLt b a → ymLe a b := by
  obtain ⟨a1, a2⟩ := a
  obtain ⟨b1, b2⟩ := b
  simp only [ymLt, ymLe, Prod.mk.injEq]
  omega

theorem ymLe_antisymm (a b : ℕ × ℕ) : ymLe a b → ymLe b a → a = b := by
  obtain ⟨a1, a2⟩ := a
  obtain ⟨b1, b2⟩ := b
  simp only [ymLt, ymLe, Prod.mk.injEq]
  omega

/-- Python tuple comparison on the `(year, month, label)` triples that
`_prev_month_label` sorts. -/
def entryLe (a b : ℕ × ℕ × String) : Bool :=
  decide (a.1 < b.1) ||
    (a.1 == b.1 &&
      (decide (a.2.1 < b.2.1) ||
        (a.2.1 == b.2.1 && decide (a.2.2 ≤ b.2.2))))

/-- The `(year, month, label)` triples parsed from a label list; the
`parsed` list of `_prev_month_label`. -/
def parsedOf (all_labels : List String) : List (ℕ × ℕ × String) :=
  all_labels.filterMap (fun lab =>
    (_label_to_year_month lab).map (fun ym => (ym.1, ym.2, lab)))

/-- `_prev_month_label` of src/genai_insights.py: sort the parseable labels
by their `(year, month, label)` triples and return the label one position
before `current` in that order (nothing when `current` is first, absent, or
nothing parses). -/
def _prev_month_label (all_labels : List String) (current : String) :
    Option String :=
  let parsed := parsedOf all_labels
  if parsed.isEmpty then none
  else
    let labels_sorted := (sortBy entryLe parsed).map (fun p => p.2.2)
    if current ∈ labels_sorted then
      let idx := labels_sorted.indexOf current
      if idx = 0 then none else labels_sorted.get? (idx - 1)
    else none

/-- One step of a maximum scan over `((year, month), label)` candidates:
keep whichever of `acc` and `c` has the larger `(year, month)`. -/
def maxStep (acc : Option ((ℕ × ℕ) × String)) (c : (ℕ × ℕ) × String) :
    Option ((ℕ × ℕ) × String) :=
  match acc with
  | none => some c
  | some b => if ymLt b.1 c.1 then some c else acc

/-- Modelled from the spec's words, for comparison with `_prev_month_label`:
the label of the dataset whose `(year, month)` pair is the largest one
strictly less than the requested label's, found by a direct maximum scan
rather than by sorting. -/
def prevMonthLabelSpec (all_labels : List String) (current : String) :
    Option String :=
  match _label_to_year_month current with
  | none => none
  | some ymc =>
    let cands := all_labels.filterMap (fun lab =>
      (_label_to_year_month lab).bind (fun ym =>
        if ymLt ym ymc then some (ym, lab) else none))
    (cands.foldl maxStep none).map (fun p => p.2)

/-- The `(year, month)` pair of a parsed `(year, month, label)` triple. -/
def ymOf (e : ℕ × ℕ × String) : ℕ × ℕ := (e.1, e.2.1)

theorem entryLe_total (a b : ℕ × ℕ × String) :
    entryLe a b = true ∨ entryLe b a = true := by
  obtain ⟨a1, a2, a3⟩ := a
  obtain ⟨b1, b2, b3⟩ := b
  simp only [entryLe, Bool.or_eq_true, Bool.and_eq_true, decide_eq_true_eq,
    beq_iff_eq]
  rcases Nat.lt_trichotomy a1 b1 with h | h | h
  · exact Or.inl (Or.inl h)
  · subst h
    rcases Nat.lt_trichotomy a2 b2 with h2 | h2 | h2
    · exact Or.inl (Or.inr ⟨rfl, Or.inl h2⟩)
    · subst h2
      rcases le_total a3 b3 with h3 | h3
      · exact Or.inl (Or.inr ⟨rfl, Or.inr ⟨rfl, h3⟩⟩)
      · exact Or.inr (Or.inr ⟨rfl, Or.inr ⟨rfl, h3⟩⟩)
    · exact Or.inr (Or.inr ⟨rfl, Or.inl h2⟩)
  · exact Or.inr (Or.inl h)

theorem entryLe_trans (a b c : ℕ × ℕ × String) :
    entryLe a b = true → entryLe b c = true → entryLe a c = true := by
  obtain ⟨a1, a2, a3⟩ := a
  obtain ⟨b1, b2, b3⟩ := b
  obtain ⟨c1, c2, c3⟩ := c
  simp only [entryLe, Bool.or_eq_true, Bool.and_eq_true, decide_eq_true_eq,
    beq_iff_eq]
  rintro (h1 | ⟨rfl, h2⟩) (g1 | ⟨rfl, g2⟩)
  · exact Or.inl (Nat.lt_trans h1 g1)
  · exact Or.inl h1
  · exact Or.inl g1
  · rcases h2 with h2 | ⟨rfl, h3⟩
    · rcases g2 with g2 | ⟨rfl, g3⟩
      · exact Or.inr ⟨rfl, Or.inl (Nat.lt_trans h2 g2)⟩
      · exact Or.inr ⟨rfl, Or.inl h2⟩
    · rcases g2 with g2 | ⟨rfl, g3⟩
      · exact Or.inr ⟨rfl, Or.inl g2⟩
      · exact Or.inr ⟨rfl, Or.inr ⟨rfl, le_trans h3 g3⟩⟩

theorem entryLe_ne_ymLt (a b : ℕ × ℕ × String) :
    entryLe a b = true → ymOf a ≠ ymOf b → ymLt (ymOf a) (ymOf b) := by
  obtain ⟨a1, a2, a3⟩ := a
  obtain ⟨b1, b2, b3⟩ := b
  simp only [entryLe, Bool.or_eq_true, Bool.and_eq_true, decide_eq_true_eq,
    beq_iff_eq, ymOf, ymLt, ne_eq, Prod.mk.injEq, not_and]
  rintro (h1 | ⟨rfl, h2 | ⟨rfl, h3⟩⟩) hne
  · exact Or.inl h1
  · exact Or.inr ⟨rfl, h2⟩
  · cases hne rfl rfl

theorem maxStep_ne_none (acc : Option ((ℕ × ℕ) × String))
    (c : (ℕ × ℕ) × String) : maxStep acc c ≠ none := by
  cases acc with
  | none => simp [maxStep]
  | some b =>
    simp only [maxStep]
    by_cases h : ymLt b.1 c.1
    · simp [h]
    · simp [h]

theorem foldl_maxStep_none (l : List ((ℕ × ℕ) × String)) :
    ∀ init, l.foldl maxStep init = none → init = none ∧ l = [] := by
  induction l with
  | nil =>
    intro init h
    exact ⟨h, rfl⟩
  | cons c cs ih =>
    intro init h
    rw [List.foldl_cons] at h
    obtain ⟨hstep, -⟩ := ih (maxStep init c) h
    exact absurd hstep (maxStep_ne_none init c)

theorem foldl_maxStep_some (l : List ((ℕ × ℕ) × String)) :
    ∀ init b, l.foldl maxStep init = some b →
      (init = some b ∨ b ∈ l) ∧ (∀ c ∈ l, ¬ ymLt b.1 c.1)
        ∧ (∀ i, init = some i → ¬ ymLt b.1 i.1) := by
  induction l with
  | nil =>
    intro init b h
    rw [List.foldl_nil] at h
    refine ⟨Or.inl h, by simp, ?_⟩
    intro i hi
    rw [h] at hi
    injection hi with e
    rw [e]
    exact ymLt_irrefl _
  | cons c cs ih =>
    intro init b h
    rw [List.foldl_cons] at h
    obtain ⟨h1, h2, h3⟩ := ih (maxStep init c) b h
    cases init with
    | none =>
      have hms : maxStep none c = some c := rfl
      refine ⟨?_, ?_, by simp⟩
      · rcases h1 with h1 | h1
        · rw [hms] at h1
          injection h1 with e
          exact Or.inr (e ▸ List.mem_cons_self c cs)
        · exact Or.inr (List.mem_cons_of_mem c h1)
      · intro d hd
        rcases List.mem_cons.mp hd with rfl | hd
        · exact h3 d hms
        · exact h2 d hd
    | some a =>
      by_cases hac : ymLt a.1 c.1
      · have hms : maxStep (some a) c = some c := by simp [maxStep, hac]
        have hbc : ¬ ymLt b.1 c.1 := h3 c hms
        refine ⟨?_, ?_, ?_⟩
        · rcases h1 with h1 | h1
          · rw [hms] at h1
            injection h1 with e
            exact Or.inr (e ▸ List.mem_cons_self c cs)
          · exact Or.inr (List.mem_cons_of_mem c h1)
        · intro d hd
          rcases List.mem_cons.mp hd with rfl | hd
          · exact hbc
          · exact h2 d hd
        · intro i hi
          injection hi with e
          subst e
          intro hba
          exact hbc (ymLt_trans _ _ _ hba hac)
      · have hms : maxStep (some a) c = some a := by simp [maxStep, hac]
        have hba : ¬ ymLt b.1 a.1 := h3 a hms
        refine ⟨?_, ?_, ?_⟩
        · rcases h1 with h1 | h1
          · rw [hms] at h1
            exact Or.inl h1
          · exact Or.inr (List.mem_cons_of_mem c h1)
        · intro d hd
          rcases List.mem_cons.mp hd with rfl | hd
          · intro hbd
            rcases ymLe_of_not_lt _ _ hac with hca | hca
            · exact hba (ymLt_trans _ _ _ hbd hca)
            · exact hba (hca ▸ hbd)
          · exact h2 d hd
        · intro i hi
          injection hi with e
          exact e ▸ hba

/-- Membership description of the `parsed` triples of `_prev_month_label`. -/
theorem mem_parsedOf (L : List String) (e : ℕ × ℕ × String) :
    e ∈ parsedOf L ↔
      (e.2.2 ∈ L ∧ _label_to_year_month e.2.2 = some (e.1, e.2.1)) := by
  unfold parsedOf
  rw [List.mem_filterMap]
  constructor
  · rintro ⟨lab, hlab, heq⟩
    cases hym : _label_to_year_month lab with
    | none =>
      rw [hym] at heq
      cases heq
    | some ym =>
      rw [hym] at heq
      simp only [Option.map_some'] at heq
      injection heq with e'
      subst e'
      exact ⟨hlab, by simpa using hym⟩
  · rintro ⟨hmem, hym⟩
    exact ⟨e.2.2, hmem, by rw [hym]; simp⟩

/-- The `(year, month)` pairs of the parsed triples are exactly the
parseable labels' parses. -/
theorem parsedOf_map_ymOf (L : List String) :
    (parsedOf L).map ymOf = L.filterMap _label_to_year_month := by
  unfold parsedOf ymOf
  rw [List.map_filterMap]
  congr 1
  funext lab
  cases _label_to_year_month lab <;> simp

/-- What the claim asks of a previous-month answer for a requested label
with parse `ymc`: `none` exactly when no parseable label of the dataset is
strictly `(year, month)`-below `ymc`, and otherwise the label of the
largest such pair. -/
def IsPrevAnswer (L : List String) (ymc : ℕ × ℕ) : Option String → Prop
  | none =>
      ∀ lab ∈ L, ∀ ym, _label_to_year_month lab = some ym → ¬ ymLt ym ymc
  | some p =>
      p ∈ L ∧ ∃ ymp, _label_to_year_month p = some ymp ∧ ymLt ymp ymc ∧
        ∀ lab ∈ L, ∀ ym, _label_to_year_month lab = some ym →
          ymLt ym ymc → ymLe ym ymp

theorem parse_inj (L : List String)
    (hnd : (L.filterMap _label_to_year_month).Nodup)
    (p q : String) (hp : p ∈ L) (hq : q ∈ L) (ym : ℕ × ℕ)
    (hpym : _label_to_year_month p = some ym)
    (hqym : _label_to_year_month q = some ym) : p = q := by
  have hndp : ((parsedOf L).map ymOf).Nodup := by
    rw [parsedOf_map_ymOf]
    exact hnd
  have hep : (ym.1, ym.2, p) ∈ parsedOf L :=
    (mem_parsedOf _ _).mpr ⟨hp, by simpa using hpym⟩
  have heq : (ym.1, ym.2, q) ∈ parsedOf L :=
    (mem_parsedOf _ _).mpr ⟨hq, by simpa using hqym⟩
  have := List.inj_on_of_nodup_map hndp hep heq rfl
  injection this with _ h2
  injection h2

theorem isPrevAnswer_unique (L : List String) (ymc : ℕ × ℕ)
    (hnd : (L.filterMap _label_to_year_month).Nodup)
    (o1 o2 : Option String)
    (h1 : IsPrevAnswer L ymc o1) (h2 : IsPrevAnswer L ymc o2) : o1 = o2 := by
  cases o1 with
  | none =>
    cases o2 with
    | none => rfl
    | some q =>
      obtain ⟨hqL, ymq, hqym, hqlt, -⟩ := h2
      exact absurd hqlt (h1 q hqL ymq hqym)
  | some p =>
    cases o2 with
    | none =>
      obtain ⟨hpL, ymp, hpym, hplt, -⟩ := h1
      exact absurd hplt (h2 p hpL ymp hpym)
    | some q =>
      obtain ⟨hpL, ymp, hpym, hplt, hpmax⟩ := h1
      obtain ⟨hqL, ymq, hqym, hqlt, hqmax⟩ := h2
      have hle1 : ymLe ymq ymp := hpmax q hqL ymq hqym hqlt
      have hle2 : ymLe ymp ymq := hqmax p hpL ymp hpym hplt
      have : ymp = ymq := ymLe_antisymm _ _ hle2 hle1
      subst this
      rw [parse_inj L hnd p q hpL hqL ymp hpym hqym]

theorem mem_cands (L : List String) (ymc : ℕ × ℕ) (c : (ℕ × ℕ) × String) :
    c ∈ L.filterMap (fun lab =>
        (_label_to_year_month lab).bind (fun ym =>
          if ymLt ym ymc then some (ym, lab) else none))
      ↔ (c.2 ∈ L ∧ _label_to_year_month c.2 = some c.1 ∧ ymLt c.1 ymc) := by
  rw [List.mem_filterMap]
  constructor
  · rintro ⟨lab, hlab, heq⟩
    cases hym : _label_to_year_month lab with
    | none =>
      rw [hym] at heq
      cases heq
    | some ym =>
      rw [hym] at heq
      simp only [Option.some_bind] at heq
      by_cases hlt : ymLt ym ymc
      · rw [if_pos hlt] at heq
        injection heq with e
        subst e
        exact ⟨hlab, hym, hlt⟩
      · rw [if_neg hlt] at heq
        cases heq
  · rintro ⟨hmem, hym, hlt⟩
    refine ⟨c.2, hmem, ?_⟩
    rw [hym]
    simp [hlt]

/-- The spec-side maximum scan satisfies the claim's characterization. -/
theorem spec_isPrevAnswer (L : List String) (cur : String) (ymc : ℕ × ℕ)
    (hymc : _label_to_year_month cur = some ymc) :
    IsPrevAnswer L ymc (prevMonthLabelSpec L cur) := by
  unfold prevMonthLabelSpec
  rw [hymc]
  simp only
  cases hf : (L.filterMap (fun lab =>
      (_label_to_year_month lab).bind (fun ym =>
        if ymLt ym ymc then some (ym, lab) else none))).foldl maxStep none with
  | none =>
    obtain ⟨-, hnil⟩ := foldl_maxStep_none _ none hf
    simp only [Option.map_none']
    intro lab hlab ym hym hlt
    have hc : (ym, lab) ∈ L.filterMap (fun lab =>
        (_label_to_year_month lab).bind (fun ym =>
          if ymLt ym ymc then some (ym, lab) else none)) :=
      (mem_cands L ymc (ym, lab)).mpr ⟨hlab, hym, hlt⟩
    rw [hnil] at hc
    cases hc
  | some b =>
    obtain ⟨h1, h2, -⟩ := foldl_maxStep_some _ none b hf
    have hb : b ∈ L.filterMap (fun lab =>
        (_label_to_year_month lab).bind (fun ym =>
          if ymLt ym ymc then some (ym, lab) else none)) := by
      rcases h1 with h1 | h1
      · cases h1
      · exact h1
    obtain ⟨hbL, hbym, hblt⟩ := (mem_cands L ymc b).mp hb
    simp only [Option.map_some']
    refine ⟨hbL, b.1, hbym, hblt, ?_⟩
    intro lab hlab ym hym hlt
    have hc : (ym, lab) ∈ L.filterMap (fun lab =>
        (_label_to_year_month lab).bind (fun ym =>
          if ymLt ym ymc then some (ym, lab) else none)) :=
      (mem_cands L ymc (ym, lab)).mpr ⟨hlab, hym, hlt⟩
    exact ymLe_of_not_lt ym b.1 (h2 (ym, lab) hc)

theorem prev_label_unfold (L : List String) (cur : String)
    (hne : parsedOf L ≠ [])
    (hmem : cur ∈ (sortBy entryLe (parsedOf L)).map (fun p => p.2.2)) :
    _prev_month_label L cur =
      (if ((sortBy entryLe (parsedOf L)).map (fun p => p.2.2)).indexOf cur = 0
       then none
       else ((sortBy entryLe (parsedOf L)).map (fun p => p.2.2)).get?
         (((sortBy entryLe (parsedOf L)).map (fun p => p.2.2)).indexOf cur
           - 1)) := by
  simp only [_prev_month_label]
  rw [if_neg (by simp [List.isEmpty_iff, hne]), if_pos hmem]

/-- The result of reading a `ymLt`-sorted copy of the parsed triples one
position before `cur` satisfies the claim's characterization. -/
theorem sorted_prev_answer (L : List String) (S : List (ℕ × ℕ × String))
    (cur : String) (ymc : ℕ × ℕ)
    (hperm : S.Perm (parsedOf L))
    (hpwlt : S.Pairwise (fun a b => ymLt (ymOf a) (ymOf b)))
    (hymc : _label_to_year_month cur = some ymc)
    (hmem : cur ∈ S.map (fun p => p.2.2)) :
    IsPrevAnswer L ymc
      (if (S.map (fun p => p.2.2)).indexOf cur = 0 then none
       else (S.map (fun p => p.2.2)).get?
         ((S.map (fun p => p.2.2)).indexOf cur - 1)) := by
  set ls := S.map (fun p => p.2.2) with hls
  have hlen : ls.length = S.length := List.length_map _ _
  have hidx : ls.indexOf cur < ls.length := List.indexOf_lt_length.mpr hmem
  have hidxS : ls.indexOf cur < S.length := hlen ▸ hidx
  have hat : ls[ls.indexOf cur] = cur := List.getElem_indexOf hidx
  have hatS : (S[ls.indexOf cur]).2.2 = cur := by
    have h2 : ls[ls.indexOf cur] = (S[ls.indexOf cur]).2.2 := List.getElem_map _
    rw [h2] at hat
    exact hat
  have hparseS : ∀ e ∈ S,
      e.2.2 ∈ L ∧ _label_to_year_month e.2.2 = some (ymOf e) := by
    intro e he
    have h := (mem_parsedOf L e).mp (hperm.mem_iff.mp he)
    exact ⟨h.1, h.2⟩
  have hymidx : ymOf (S[ls.indexOf cur]) = ymc := by
    have h := (hparseS (S[ls.indexOf cur]) (List.getElem_mem hidxS)).2
    rw [hatS, hymc] at h
    injection h with e
    exact e.symm
  have hpw := List.pairwise_iff_getElem.mp hpwlt
  have hcandpos : ∀ lab ∈ L, ∀ ym, _label_to_year_month lab = some ym →
      ymLt ym ymc → ∃ j, ∃ hj : j < S.length,
        S[j] = (ym.1, ym.2, lab) ∧ j < ls.indexOf cur := by
    intro lab hlab ym hym hlt
    have he : (ym.1, ym.2, lab) ∈ S :=
      hperm.mem_iff.mpr ((mem_parsedOf _ _).mpr ⟨hlab, by simpa using hym⟩)
    obtain ⟨j, hj, hSj⟩ := List.getElem_of_mem he
    have hymj : ymOf (S[j]) = ym := by
      rw [hSj]
      rfl
    refine ⟨j, hj, hSj, ?_⟩
    rcases Nat.lt_trichotomy j (ls.indexOf cur) with hc | hc | hc
    · exact hc
    · exfalso
      subst hc
      rw [hymidx] at hymj
      exact ymLt_irrefl ymc (hymj ▸ hlt)
    · exfalso
      have := hpw (ls.indexOf cur) j hidxS hj hc
      rw [hymidx, hymj] at this
      exact ymLt_asymm _ _ hlt this
  by_cases hzero : ls.indexOf cur = 0
  · rw [if_pos hzero]
    intro lab hlab ym hym hlt
    obtain ⟨j, hj, -, hjlt⟩ := hcandpos lab hlab ym hym hlt
    omega
  · rw [if_neg hzero]
    have hprev : ls.indexOf cur - 1 < ls.length := by omega
    have hprevS : ls.indexOf cur - 1 < S.length := hlen ▸ hprev
    rw [List.get?_eq_getElem?, List.getElem?_eq_getElem hprev]
    have hlsprev : ls[ls.indexOf cur - 1] = (S[ls.indexOf cur - 1]).2.2 :=
      List.getElem_map _
    rw [hlsprev]
    have hP := hparseS (S[ls.indexOf cur - 1]) (List.getElem_mem hprevS)
    have hPlt : ymLt (ymOf (S[ls.indexOf cur - 1])) ymc := by
      have := hpw (ls.indexOf cur - 1) (ls.indexOf cur) hprevS hidxS (by omega)
      rw [hymidx] at this
      exact this
    refine ⟨hP.1, ymOf (S[ls.indexOf cur - 1]), hP.2, hPlt, ?_⟩
    intro lab hlab ym hym hlt
    obtain ⟨j, hj, hSj, hjlt⟩ := hcandpos lab hlab ym hym hlt
    have hymj : ymOf (S[j]) = ym := by
      rw [hSj]
      rfl
    rcases Nat.lt_trichotomy j (ls.indexOf cur - 1) with hc | hc | hc
    · left
      have := hpw j (ls.indexOf cur - 1) hj hprevS hc
      rw [hymj] at this
      exact this
    · right
      subst hc
      exact hymj.symm
    · exfalso
      omega

/-- The code-side lookup satisfies the claim's characterization, under the
amendment's hypotheses. -/
theorem code_isPrevAnswer (L : List String) (cur : String) (ymc : ℕ × ℕ)
    (hin : cur ∈ L) (hymc : _label_to_year_month cur = some ymc)
    (hnd : (L.filterMap _label_to_year_month).Nodup) :
    IsPrevAnswer L ymc (_prev_month_label L cur) := by
  have hec : (ymc.1, ymc.2, cur) ∈ parsedOf L :=
    (mem_parsedOf _ _).mpr ⟨hin, by simpa using hymc⟩
  have hperm : (sortBy entryLe (parsedOf L)).Perm (parsedOf L) :=
    perm_sortBy _ _
  have hpwle : (sortBy entryLe (parsedOf L)).Pairwise
      (fun a b => entryLe a b = true) :=
    pairwise_sortBy entryLe entryLe_total entryLe_trans _
  have hndym : ((sortBy entryLe (parsedOf L)).map ymOf).Nodup := by
    rw [(hperm.map ymOf).nodup_iff, parsedOf_map_ymOf]
    exact hnd
  have hpwne : (sortBy entryLe (parsedOf L)).Pairwise
      (fun a b => ymOf a ≠ ymOf b) := List.pairwise_map.mp hndym
  have hpwlt : (sortBy entryLe (parsedOf L)).Pairwise
      (fun a b => ymLt (ymOf a) (ymOf b)) :=
    (hpwle.and hpwne).imp (fun h => entryLe_ne_ymLt _ _ h.1 h.2)
  have hecS : (ymc.1, ymc.2, cur) ∈ sortBy entryLe (parsedOf L) :=
    hperm.mem_iff.mpr hec
  have hmem : cur ∈ (sortBy entryLe (parsedOf L)).map (fun p => p.2.2) :=
    List.mem_map.mpr ⟨_, hecS, rfl⟩
  rw [prev_label_unfold L cur (List.ne_nil_of_mem hec) hmem]
  exact sorted_prev_answer L _ cur ymc hperm hpwlt hymc hmem

/-- C4, amended.  Provided the requested label is present in the label list
and parses as a month label, and no two parseable label occurrences share a
`(year, month)` pair, `_prev_month_label` agrees with the direct
largest-strictly-smaller-(year, month) scan `prevMonthLabelSpec` — in
particular the lookup orders by `(year, month)` and never by label string
order. -/
theorem prev_month_label_eq_spec (L : List String) (cur : String)
    (ymc : ℕ × ℕ)
    (hin : cur ∈ L) (hymc : _label_to_year_month cur = some ymc)
    (hnd : (L.filterMap _label_to_year_month).Nodup) :
    _prev_month_label L cur = prevMonthLabelSpec L cur :=
  isPrevAnswer_unique L ymc hnd _ _
    (code_isPrevAnswer L cur ymc hin hymc hnd)
    (spec_isPrevAnswer L cur ymc hymc)

/-- C4, witness: on the concrete labels DEC2025, JAN2026, NOV2025 the
lookup for JAN2026 agrees with the specification scan and returns DEC2025 —
the (year, month) order places JAN2026 after DEC2025 although "JAN" < "DEC"
lexically. -/
theorem prev_month_label_eq_spec_witness :
    _prev_month_label ["DEC2025", "JAN2026", "NOV2025"] "JAN2026"
        = prevMonthLabelSpec ["DEC2025", "JAN2026", "NOV2025"] "JAN2026"
      ∧ prevMonthLabelSpec ["DEC2025", "JAN2026", "NOV2025"] "JAN2026"
        = some "DEC2025" :=
  ⟨prev_month_label_eq_spec ["DEC2025", "JAN2026", "NOV2025"] "JAN2026"
      (2026, 1) (by decide) (by decide) (by decide),
    by decide⟩

/-- C4, counterexample.  The claim as stated fails when the requested label
is not among the dataset's labels: for labels [NOV2025] and requested label
DEC2025, NOV2025 has the largest (year, month) strictly below DEC2025's,
yet the lookup returns nothing. -/
theorem prev_month_label_counterexample :
    _prev_month_label ["NOV2025"] "DEC2025" = none
    ∧ "NOV2025" ∈ ["NOV2025"]
    ∧ _label_to_year_month "NOV2025" = some (2025, 11)
    ∧ _label_to_year_month "DEC2025" = some (2025, 12)
    ∧ ymLt (2025, 11) (2025, 12) := by
  refine ⟨by decide, by decide, by decide, by decide, by decide⟩

/-! ## Rounding and the top-N list (src/genai_insights.py) -/

/-- Round to the nearest integer, halves to the even neighbour: the
rounding Python's `format` applies for `.0f`/`.1f`. -/
def roundHalfEven (q : ℚ) : ℤ :=
  if q - ⌊q⌋ < 1 / 2 then ⌊q⌋
  else if 1 / 2 < q - ⌊q⌋ then ⌊q⌋ + 1
  else if ⌊q⌋ % 2 = 0 then ⌊q⌋ else ⌊q⌋ + 1

/-- Model of the Python format spec `.0f` (round to a whole number). -/
def fmt0f (q : ℚ) : String :=
  if q < 0 then "-" ++ toString (roundHalfEven (-q))
  else toString (roundHalfEven q)

/-- The `total = sum(counts.values())` of `_top_n_with_pct`. -/
def totalOf (counts : List (String × ℕ)) : ℕ :=
  (counts.map (fun p => p.2)).sum

/-- The item list `_top_n_with_pct` renders: counts sorted descending
(stable), first `n` kept, each with its share of the total rounded to a
whole percent. -/
def topNWithPctItems (counts : List (String × ℕ)) (n : ℕ) :
    List (String × ℕ × ℤ) :=
  ((sortBy (fun a b => decide (b.2 ≤ a.2)) counts).take n).map
    (fun kv => (kv.1, kv.2,
      roundHalfEven ((kv.2 : ℚ) * 100 / (totalOf counts : ℚ))))

/-- `_top_n_with_pct` of src/genai_insights.py. -/
def _top_n_with_pct (counts : List (String × ℕ)) (n : ℕ) : String :=
  if counts.isEmpty then "N/A"
  else
    joinBy ", " (((sortBy (fun a b => decide (b.2 ≤ a.2)) counts).take n).map
      (fun kv => kv.1 ++ " (" ++ toString kv.2 ++ " • "
        ++ fmt0f ((kv.2 : ℚ) * 100 / (totalOf counts : ℚ)) ++ "%)"))

theorem roundHalfEven_le (q : ℚ) : (roundHalfEven q : ℚ) ≤ q + 1 / 2 := by
  unfold roundHalfEven
  have hfl : (⌊q⌋ : ℚ) ≤ q := Int.floor_le q
  split_ifs with h1 h2 h3
  · linarith
  · push_cast
    linarith
  · linarith
  · push_cast
    linarith

theorem roundHalfEven_zero : roundHalfEven 0 = 0 := by
  unfold roundHalfEven
  norm_num

theorem int_cast_list_sum (l : List ℤ) :
    ((l.sum : ℤ) : ℚ) = (l.map (Int.cast : ℤ → ℚ)).sum := by
  induction l with
  | nil => simp
  | cons x xs ih => simp [ih]

theorem nat_cast_list_sum (l : List ℕ) :
    ((l.sum : ℕ) : ℚ) = (l.map (Nat.cast : ℕ → ℚ)).sum := by
  induction l with
  | nil => simp
  | cons x xs ih => simp [ih]

theorem sortBy_desc_pairwise (counts : List (String × ℕ)) :
    (sortBy (fun a b : String × ℕ => decide (b.2 ≤ a.2)) counts).Pairwise
      (fun a b => b.2 ≤ a.2) := by
  have h := pairwise_sortBy (fun a b : String × ℕ => decide (b.2 ≤ a.2))
    (fun a b => by
      rcases Nat.le_total b.2 a.2 with h | h
      · exact Or.inl (by simpa using h)
      · exact Or.inr (by simpa using h))
    (fun a b c hab hbc => by
      simp only [decide_eq_true_eq] at hab hbc ⊢
      omega)
    counts
  exact h.imp (fun hab => by simpa using hab)

/-- C9, amended.  The rendered top issue-types list has length at most 3,
is sorted by descending count, and each listed share is count × 100 /
month-total rounded (half-to-even) to a whole percent; the listed shares
sum to at most 101 — rounding can push the sum one point above 100, so "at
most 100" as claimed does not hold. -/
theorem top3_list_props (counts : List (String × ℕ)) :
    (topNWithPctItems counts 3).length ≤ 3
    ∧ (topNWithPctItems counts 3).Pairwise (fun a b => b.2.1 ≤ a.2.1)
    ∧ (∀ p ∈ topNWithPctItems counts 3,
        p.2.2 = roundHalfEven ((p.2.1 : ℚ) * 100 / (totalOf counts : ℚ)))
    ∧ ((topNWithPctItems counts 3).map (fun p => p.2.2)).sum ≤ 101 := by
  refine ⟨?_, ?_, ?_, ?_⟩
  · unfold topNWithPctItems
    rw [List.length_map]
    exact List.length_take_le 3 _
  · unfold topNWithPctItems
    refine List.pairwise_map.mpr ?_
    have hs : ((sortBy (fun a b : String × ℕ => decide (b.2 ≤ a.2))
        counts).take 3).Pairwise (fun a b => b.2 ≤ a.2) :=
      (sortBy_desc_pairwise counts).sublist (List.take_sublist _ _)
    exact hs.imp (fun h => h)
  · intro p hp
    obtain ⟨kv, hkv, rfl⟩ := List.mem_map.mp hp
    rfl
  · by_cases hT : totalOf counts = 0
    · have hz : ∀ z ∈ (topNWithPctItems counts 3).map (fun p => p.2.2),
          z = 0 := by
        intro z hz
        obtain ⟨p, hp, rfl⟩ := List.mem_map.mp hz
        obtain ⟨kv, hkv, rfl⟩ := List.mem_map.mp hp
        show roundHalfEven ((kv.2 : ℚ) * 100 / (totalOf counts : ℚ)) = 0
        rw [hT, Nat.cast_zero, div_zero]
        exact roundHalfEven_zero
      rw [List.sum_eq_zero hz]
      norm_num
    · have hTpos : (0 : ℚ) < (totalOf counts : ℚ) := by
        exact_mod_cast Nat.pos_of_ne_zero hT
      have hTne : (totalOf counts : ℚ) ≠ 0 := ne_of_gt hTpos
      -- the taken prefix and its count sum
      have hsub : (((sortBy (fun a b : String × ℕ => decide (b.2 ≤ a.2))
          counts).take 3).map (fun p => p.2)).sum ≤ totalOf counts := by
        have h1 : ((((sortBy (fun a b : String × ℕ => decide (b.2 ≤ a.2))
            counts).take 3).map (fun p => p.2))).Sublist
            ((sortBy (fun a b : String × ℕ => decide (b.2 ≤ a.2))
              counts).map (fun p => p.2)) :=
          (List.take_sublist _ _).map _
        have h2 : ((sortBy (fun a b : String × ℕ => decide (b.2 ≤ a.2))
            counts).map (fun p => p.2)).sum
              = (counts.map (fun p => p.2)).sum :=
          ((perm_sortBy _ counts).map (fun p => p.2)).sum_eq
        calc (((sortBy (fun a b : String × ℕ => decide (b.2 ≤ a.2))
            counts).take 3).map (fun p => p.2)).sum
            ≤ ((sortBy (fun a b : String × ℕ => decide (b.2 ≤ a.2))
                counts).map (fun p => p.2)).sum :=
              h1.sum_le_sum (fun a _ => Nat.zero_le a)
          _ = totalOf counts := h2
      -- cast the integer share sum into ℚ and bound it
      have hcast : ((((topNWithPctItems counts 3).map (fun p => p.2.2)).sum
            : ℤ) : ℚ)
          = ((topNWithPctItems counts 3).map (fun p => (p.2.2 : ℚ))).sum := by
        rw [int_cast_list_sum, List.map_map]
        rfl
      have hpoint : ∀ kv ∈ (sortBy (fun a b : String × ℕ =>
          decide (b.2 ≤ a.2)) counts).take 3,
          ((roundHalfEven ((kv.2 : ℚ) * 100 / (totalOf counts : ℚ))) : ℚ)
            ≤ (kv.2 : ℚ) * (100 / (totalOf counts : ℚ)) + 1 / 2 := by
        intro kv _
        have h := roundHalfEven_le ((kv.2 : ℚ) * 100 / (totalOf counts : ℚ))
        have heq : (kv.2 : ℚ) * 100 / (totalOf counts : ℚ)
            = (kv.2 : ℚ) * (100 / (totalOf counts : ℚ)) := mul_div_assoc _ _ _
        linarith [h, heq]
      have hmain : ((topNWithPctItems counts 3).map (fun p => (p.2.2 : ℚ))).sum
          ≤ (((sortBy (fun a b : String × ℕ => decide (b.2 ≤ a.2))
              counts).take 3).map
                (fun kv => (kv.2 : ℚ) * (100 / (totalOf counts : ℚ))
                  + 1 / 2)).sum := by
        unfold topNWithPctItems
        rw [List.map_map]
        exact List.sum_le_sum hpoint
      have hsplit : (((sortBy (fun a b : String × ℕ => decide (b.2 ≤ a.2))
          counts).take 3).map
            (fun kv => (kv.2 : ℚ) * (100 / (totalOf counts : ℚ))
              + 1 / 2)).sum
          = (((sortBy (fun a b : String × ℕ => decide (b.2 ≤ a.2))
              counts).take 3).map
                (fun kv => (kv.2 : ℚ) * (100 / (totalOf counts : ℚ)))).sum
            + (((sortBy (fun a b : String × ℕ => decide (b.2 ≤ a.2))
                counts).take 3).map (fun _ => (1 : ℚ) / 2)).sum :=
        List.sum_map_add
      have hconst : (((sortBy (fun a b : String × ℕ => decide (b.2 ≤ a.2))
          counts).take 3).map (fun _ => (1 : ℚ) / 2)).sum ≤ 3 / 2 := by
        rw [List.map_const', List.sum_replicate, nsmul_eq_mul]
        have hlen : (((sortBy (fun a b : String × ℕ => decide (b.2 ≤ a.2))
            counts).take 3).length : ℚ) ≤ 3 := by
          exact_mod_cast List.length_take_le 3 _
        nlinarith
      have hshares : (((sortBy (fun a b : String × ℕ => decide (b.2 ≤ a.2))
          counts).take 3).map
            (fun kv => (kv.2 : ℚ) * (100 / (totalOf counts : ℚ)))).sum
          ≤ 100 := by
        rw [List.sum_map_mul_right]
        have hcastsum : (((sortBy (fun a b : String × ℕ => decide (b.2 ≤ a.2))
            counts).take 3).map (fun kv => (kv.2 : ℚ))).sum
            = (((((sortBy (fun a b : String × ℕ => decide (b.2 ≤ a.2))
                counts).take 3).map (fun p => p.2)).sum : ℕ) : ℚ) := by
          rw [nat_cast_list_sum, List.map_map]
          rfl
        rw [hcastsum]
        have hle : (((((sortBy (fun a b : String × ℕ => decide (b.2 ≤ a.2))
            counts).take 3).map (fun p => p.2)).sum : ℕ) : ℚ)
            ≤ (totalOf counts : ℚ) := by
          exact_mod_cast hsub
        calc (((((sortBy (fun a b : String × ℕ => decide (b.2 ≤ a.2))
            counts).take 3).map (fun p => p.2)).sum : ℕ) : ℚ)
              * (100 / (totalOf counts : ℚ))
            ≤ (totalOf counts : ℚ) * (100 / (totalOf counts : ℚ)) := by
              apply mul_le_mul_of_nonneg_right hle
              positivity
          _ = 100 := by
              field_simp
      have hq : ((((topNWithPctItems counts 3).map (fun p => p.2.2)).sum
            : ℤ) : ℚ) ≤ 100 + 3 / 2 := by
        rw [hcast]
        calc ((topNWithPctItems counts 3).map (fun p => (p.2.2 : ℚ))).sum
            ≤ _ := hmain
          _ = _ := hsplit
          _ ≤ 100 + 3 / 2 := add_le_add hshares hconst
      have hlt : (((topNWithPctItems counts 3).map (fun p => p.2.2)).sum
          : ℤ) < 102 := by
        have : ((((topNWithPctItems counts 3).map (fun p => p.2.2)).sum
            : ℤ) : ℚ) < 102 := by linarith
        exact_mod_cast this
      omega

/-- C9, counterexample.  For the month counts A: 67, B: 67, C: 66 (total
200) the three rounded shares are 34, 34 and 33, summing to 101 > 100. -/
theorem top3_share_sum_counterexample :
    ((topNWithPctItems [("A", 67), ("B", 67), ("C", 66)] 3).map
        (fun p => p.2.2)).sum = 101
    ∧ ¬ ((topNWithPctItems [("A", 67), ("B", 67), ("C", 66)] 3).map
        (fun p => p.2.2)).sum ≤ 100 := by
  have hsort : sortBy (fun a b : String × ℕ => decide (b.2 ≤ a.2))
      [("A", 67), ("B", 67), ("C", 66)] = [("A", 67), ("B", 67), ("C", 66)] := by
    decide
  have htot : totalOf [("A", 67), ("B", 67), ("C", 66)] = 200 := by decide
  have h34 : roundHalfEven (((67 : ℕ) : ℚ) * 100 / ((200 : ℕ) : ℚ)) = 34 := by
    unfold roundHalfEven
    push_cast
    norm_num
  have h33 : roundHalfEven (((66 : ℕ) : ℚ) * 100 / ((200 : ℕ) : ℚ)) = 33 := by
    unfold roundHalfEven
    push_cast
    norm_num
  have hitems : (topNWithPctItems [("A", 67), ("B", 67), ("C", 66)] 3).map
      (fun p => p.2.2) = [34, 34, 33] := by
    unfold topNWithPctItems
    rw [hsort, htot]
    simp only [List.take, List.map]
    rw [h34, h33]
  rw [hitems]
  norm_num

/-! ## The per-month narrative `generate_summary_text` (src/genai_insights.py) -/

/-- The annotated table handed to `generate_summary_text` through
`summary["raw"]`: rows paired with their issue type, plus which optional
columns exist (`issue_type` may be absent, in which case the source writes
the constant `"Other"`). -/
structure AnnFrame where
  rows : List (TicketRow × String)
  hasStatus : Bool
  hasEngineer : Bool
  hasIssueType : Bool
  hasStart : Bool
  hasEnd : Bool
deriving DecidableEq, Repr

/-- The summary dict as `generate_summary_text` reads it: the `raw`
annotated table and the `by_month` counts, either possibly absent. -/
structure SummaryInput where
  raw : Option AnnFrame
  by_month : Option (List (String × ℕ))
deriving DecidableEq, Repr

/-- The month-scoped slice `sub` of the annotated table. -/
def subOf (raw : AnnFrame) (m : String) : List (TicketRow × String) :=
  raw.rows.filter (fun x => x.1.month_label == m)

/-- The normalized status series of the month slice; empty when the status
column is absent. -/
def statusListOf (raw : AnnFrame) (m : String) : List String :=
  if raw.hasStatus then (subOf raw m).map (fun x => normStatus x.1.status)
  else []

/-- The normalized engineer series of the month slice; empty when the
engineer column is absent. -/
def engineerListOf (raw : AnnFrame) (m : String) : List String :=
  if raw.hasEngineer then (subOf raw m).map (fun x => normEngineer x.1.engineer)
  else []

/-- The issue-type series of the month slice; the constant `"Other"` when
the `issue_type` column is absent. -/
def issueTypeListOf (raw : AnnFrame) (m : String) : List String :=
  if raw.hasIssueType then (subOf raw m).map (fun x => x.2)
  else (subOf raw m).map (fun _ => "Other")

/-- `closure_rate = (closed * 100 / total) if total else 0`. -/
def closure_rate_calc (closed total : ℕ) : ℚ :=
  if total ≠ 0 then (closed : ℚ) * 100 / (total : ℚ) else 0

/-- `_pick_date_for_month` of src/genai_insights.py: prefer the end date if
it falls in `(y, m)`, else the start date if it does, else nothing. -/
def _pick_date_for_month (start stop : Option Date) (y m : ℕ) : Option Date :=
  match stop with
  | some e =>
    if e.year = y ∧ e.month = m then some e
    else
      match start with
      | some s => if s.year = y ∧ s.month = m then some s else none
      | none => none
  | none =>
    match start with
    | some s => if s.year = y ∧ s.month = m then some s else none
    | none => none

/-- The dates of the month slice that fall inside the requested calendar
month, picked per row by `_pick_date_for_month`; a missing `start` or
`end` column reads as no value. -/
def monthDatesOf (raw : AnnFrame) (m : String) (yy mm : ℕ) : List Date :=
  (subOf raw m).filterMap (fun x =>
    _pick_date_for_month (if raw.hasStart then x.1.start else none)
      (if raw.hasEnd then x.1.stop else none) yy mm)

/-- Weekday names as pandas `day_name()` produces them, indexed by
`dayOfWeek` (0 = Sunday). -/
def weekdayNames : List String :=
  ["Sunday", "Monday", "Tuesday", "Wednesday", "Thursday", "Friday",
   "Saturday"]

/-- Day of the week of a Gregorian date, 0 = Sunday (Sakamoto's method). -/
def dayOfWeek (d : Date) : ℕ :=
  let t : List ℕ := [0, 3, 2, 5, 0, 3, 5, 1, 4, 6, 2, 4]
  let y : ℤ := if d.month < 3 then (d.year : ℤ) - 1 else (d.year : ℤ)
  ((y + y.fdiv 4 - y.fdiv 100 + y.fdiv 400 + (t.getD (d.month - 1) 0 : ℤ)
    + (d.day : ℤ)) % 7).toNat

/-- Weekday name of a date. -/
def dayName (d : Date) : String :=
  weekdayNames.getD (dayOfWeek d) ""

/-- Zero-pad to two digits. -/
def pad2 (n : ℕ) : String :=
  if n < 10 then "0" ++ toString n else toString n

/-- Zero-pad to four digits. -/
def pad4 (n : ℕ) : String :=
  if n < 10 then "000" ++ toString n
  else if n < 100 then "00" ++ toString n
  else if n < 1000 then "0" ++ toString n
  else toString n

/-- A date as Python renders `datetime.date`: `YYYY-MM-DD`. -/
def showDate (d : Date) : String :=
  pad4 d.year ++ "-" ++ pad2 d.month ++ "-" ++ pad2 d.day

/-- The peak-day / quiet-day / busiest-weekday strings of
`generate_summary_text`: `"N/A"` unless the month label parses and a
start or end column exists and some date falls inside the month. -/
def peakBlock (raw : AnnFrame) (m : String) : String × String × String :=
  match _label_to_year_month m with
  | none => ("N/A", "N/A", "N/A")
  | some ym =>
    if raw.hasStart || raw.hasEnd then
      let md := monthDatesOf raw m ym.1 ym.2
      if md.isEmpty then ("N/A", "N/A", "N/A")
      else
        let daily := sortBy (fun a b => dateLe a.1 b.1) (tally md)
        let d_desc := sortBy (fun a b => decide (b.2 ≤ a.2)) daily
        let peak_str :=
          match d_desc.head? with
          | some p => showDate p.1 ++ " (" ++ toString p.2 ++ ")"
          | none => "N/A"
        let d_min := sortBy (fun a b => decide (a.2 ≤ b.2))
          (daily.filter (fun p => decide (0 < p.2)))
        let quiet_str :=
          match d_min.head? with
          | some p => showDate p.1 ++ " (" ++ toString p.2 ++ ")"
          | none => "N/A"
        let wcounts := valueCounts (md.map dayName)
        let busiest :=
          match wcounts.head? with
          | some p => p.1 ++ " (" ++ toString p.2 ++ ")"
          | none => "N/A"
        (peak_str, quiet_str, busiest)
    else ("N/A", "N/A", "N/A")

/-- The digits-after-sign part of the Python `.1f` format of a
non-negative value. -/
def fmt1fMag (x : ℚ) : String :=
  let r := roundHalfEven (x * 10)
  toString (r / 10) ++ "." ++ toString (r % 10)

/-- Model of the Python format spec `+.1f`. -/
def fmtSigned1f (q : ℚ) : String :=
  (if q < 0 then "-" else "+") ++ fmt1fMag |q|

/-- Model of the Python format spec `.1f`. -/
def fmt1f (q : ℚ) : String :=
  if q < 0 then "-" ++ fmt1fMag (-q) else fmt1fMag q

/-- The signed-percentage month-over-month phrase
`f"{delta:+.1f}% {sign} vs {prev_lab}"`. -/
def momDeltaPhrase (c p : ℕ) (prevLab : String) : String :=
  let delta : ℚ := ((c : ℚ) - (p : ℚ)) * 100 / (p : ℚ)
  fmtSigned1f delta ++ "% "
    ++ (if 0 < delta then "increase"
        else if delta < 0 then "decrease" else "no change")
    ++ " vs " ++ prevLab

/-- The unbounded-increase month-over-month phrase. -/
def momInfPhrase : String := "∞% increase (previous month had 0)"

/-- The no-previous-month month-over-month phrase. -/
def momNAPhrase : String := "No previous month available for comparison"

/-- The month-over-month stage of `generate_summary_text`. -/
def momChangeStr (by_month : Option (List (String × ℕ))) (m : String) :
    String :=
  match by_month with
  | none => "N/A"
  | some bm =>
    if bm.isEmpty then "N/A"
    else
      let all_labels := bm.map (fun p => p.1)
      let prev_lab := _prev_month_label all_labels m
      let cur_count : Option ℕ :=
        if m ∈ all_labels then some (lookupCount bm m) else none
      let prev_count : Option ℕ :=
        match prev_lab with
        | some pl => if pl ∈ all_labels then some (lookupCount bm pl) else none
        | none => none
      match cur_count, prev_count with
      | some c, some p =>
        if 0 < p then momDeltaPhrase c p (prev_lab.getD "") else momInfPhrase
      | some _, none => momNAPhrase
      | none, _ => "N/A"

/-- Python `max(counts.items(), key=value)[0]`: the first key of maximal
count in iteration order. -/
def maxByCount (l : List (String × ℕ)) : String :=
  match l with
  | [] => ""
  | x :: xs => (xs.foldl (fun a b => if a.2 < b.2 then b else a) x).1

/-- The canned recommendation for the dominant issue type. -/
def recoForDominant (dominant : String) : String :=
  if pyLower dominant == "endpoint compliance" then
    "Validate agents (EDR/DLP/Tanium/PMC), fix hostnames, and automate remediation scripts."
  else if pyLower dominant == "citrix" then
    "Coordinate with Citrix/Network for URL reachability and client reliability checks."
  else if pyLower dominant == "access/password" || pyLower dominant == "access"
      || pyLower dominant == "password" then
    "Promote SSPR and password hygiene; publish quick guides to reduce resets."
  else if pyLower dominant == "mfa" then
    "Push MFA enrollment/notification troubleshooting tips; preemptive user comms."
  else
    "Review top categories and publish targeted how-to guides for recurring issues."

/-- The `recos` list of `generate_summary_text`. -/
def buildRecos (by_issue_type : List (String × ℕ)) (closure_rate : ℚ)
    (peak_str : String) : List String :=
  (if by_issue_type.isEmpty then []
   else [recoForDominant (maxByCount by_issue_type)])
  ++ (if closure_rate < 95 then
        ["Improve closure rate with SOPs and triage playbooks."] else [])
  ++ (if peak_str ≠ "N/A" then
        ["Staff peak days proactively to avoid backlog."] else [])

/-- The `parts` list `generate_summary_text` joins with newlines (the
by-engineer counts the source also computes are never rendered). -/
def summaryParts (raw : AnnFrame) (by_month : Option (List (String × ℕ)))
    (m : String) : List String :=
  let sub := subOf raw m
  let by_status := valueCounts (statusListOf raw m)
  let by_issue_type := valueCounts (issueTypeListOf raw m)
  let total := sub.length
  let closed := lookupCount by_status "Closed"
  let opened := lookupCount by_status "Open"
  let closure_rate := closure_rate_calc closed total
  let pqw := peakBlock raw m
  let top3 := _top_n_with_pct by_issue_type 3
  let mom := momChangeStr by_month m
  let recos := buildRecos by_issue_type closure_rate pqw.1
  ([ "Monthly summary for " ++ m ++ ":",
     "• Total issues: " ++ toString total ++ "  |  Closed: " ++ toString closed
       ++ "  |  Open: " ++ toString opened ++ "  |  Closure rate: "
       ++ fmt1f closure_rate ++ "%",
     "• Top 3 categories: " ++ top3,
     "• Peak day: " ++ pqw.1 ++ "  |  Quiet day: " ++ pqw.2.1
       ++ "  |  Busiest weekday: " ++ pqw.2.2,
     "• Month-over-Month change: " ++ mom ]
   ++ (if recos.isEmpty then []
       else ["• Recommendations: " ++ joinBy " " recos])
   ++ ["• See attached charts for daily trend, issue mix, weekday pattern, and workload."])

/-- `generate_summary_text` of src/genai_insights.py. -/
def generate_summary_text (summary : SummaryInput) (m : String) : String :=
  match summary.raw with
  | none => "No data available for " ++ m ++ "."
  | some raw =>
    if raw.rows.isEmpty then "No data available for " ++ m ++ "."
    else if (subOf raw m).isEmpty then "No data available for " ++ m ++ "."
    else joinBy "\n" (summaryParts raw summary.by_month m)

/-- The rows of the requested month as the narrative scopes them: empty
when the summary has no annotated table at all. -/
def scopeRows (summary : SummaryInput) (m : String) :
    List (TicketRow × String) :=
  match summary.raw with
  | none => []
  | some raw => subOf raw m

/-! ## C5: the closure rate -/

/-- C5.  For every month slice, the closure rate the narrative computes is
`closed × 100 / total` guarded by `total ≠ 0`: it always lies in
`[0, 100]`, and the `total = 0` branch returns `0` without dividing — the
division is never performed with a zero total. -/
theorem closure_rate_bounds (raw : AnnFrame) (m : String) :
    0 ≤ closure_rate_calc
        (lookupCount (valueCounts (statusListOf raw m)) "Closed")
        (subOf raw m).length
    ∧ closure_rate_calc
        (lookupCount (valueCounts (statusListOf raw m)) "Closed")
        (subOf raw m).length ≤ 100
    ∧ (∀ k : ℕ, closure_rate_calc k 0 = 0) := by
  have hlen : (statusListOf raw m).length ≤ (subOf raw m).length := by
    unfold statusListOf
    by_cases h : raw.hasStatus
    · rw [if_pos h, List.length_map]
    · rw [if_neg h]
      exact Nat.zero_le _
  have hclosed : lookupCount (valueCounts (statusListOf raw m)) "Closed"
      ≤ (subOf raw m).length :=
    le_trans (lookupCount_le _ _ _ (valueCounts_le _)) hlen
  refine ⟨?_, ?_, ?_⟩
  · unfold closure_rate_calc
    split_ifs with h
    · positivity
    · exact le_refl 0
  · unfold closure_rate_calc
    split_ifs with h
    · have hTpos : (0 : ℚ) < ((subOf raw m).length : ℚ) := by
        exact_mod_cast Nat.pos_of_ne_zero h
      rw [div_le_iff₀ hTpos]
      have hc : ((lookupCount (valueCounts (statusListOf raw m)) "Closed" : ℕ)
          : ℚ) ≤ ((subOf raw m).length : ℚ) := by
        exact_mod_cast hclosed
      nlinarith
    · norm_num
  · intro k
    unfold closure_rate_calc
    simp

/-! ## C6: the three month-over-month outcomes -/

theorem fmtSigned1f_head (q : ℚ) :
    (fmtSigned1f q).data.head? = some '+'
    ∨ (fmtSigned1f q).data.head? = some '-' := by
  unfold fmtSigned1f
  by_cases h : q < 0
  · right
    rw [if_pos h, String.data_append]
    rfl
  · left
    rw [if_neg h, String.data_append]
    rfl

/-- C6.  The month-over-month stage produces only four shapes of output —
the bare `"N/A"` of an absent/empty by-month table, the distinct
no-previous-month phrase, the unbounded-increase phrase for a zero
previous count, and the signed-percentage phrase when a previous month
with nonzero count exists — and the three informative shapes are pairwise
distinct for every input; in particular the zero-delta phrase
`+0.0% no change vs …` is never the no-previous-month phrase. -/
theorem mom_three_outcomes :
    (∀ (bm : Option (List (String × ℕ))) (m : String),
      momChangeStr bm m = "N/A" ∨ momChangeStr bm m = momNAPhrase
      ∨ momChangeStr bm m = momInfPhrase
      ∨ ∃ c p pl, 0 < p ∧ momChangeStr bm m = momDeltaPhrase c p pl)
    ∧ (∀ (c p : ℕ) (pl : String), momDeltaPhrase c p pl ≠ momInfPhrase)
    ∧ (∀ (c p : ℕ) (pl : String), momDeltaPhrase c p pl ≠ momNAPhrase)
    ∧ momInfPhrase ≠ momNAPhrase
    ∧ (∀ (p : ℕ) (pl : String),
        momDeltaPhrase p p pl = "+0.0% no change vs " ++ pl) := by
  have head_app : ∀ (l t : List Char) (x : Char),
      l.head? = some x → (l ++ t).head? = some x := by
    intro l t x h
    cases l with
    | nil => cases h
    | cons a as =>
      simp only [List.head?_cons, Option.some.injEq] at h
      simp [h]
  have hdelta_head : ∀ (c p : ℕ) (pl : String),
      (momDeltaPhrase c p pl).data.head? = some '+'
      ∨ (momDeltaPhrase c p pl).data.head? = some '-' := by
    intro c p pl
    unfold momDeltaPhrase
    rw [String.data_append, String.data_append, String.data_append,
      String.data_append]
    rcases fmtSigned1f_head (((c : ℚ) - (p : ℚ)) * 100 / (p : ℚ)) with h | h
    · exact Or.inl (head_app _ _ _ (head_app _ _ _ (head_app _ _ _
        (head_app _ _ _ h))))
    · exact Or.inr (head_app _ _ _ (head_app _ _ _ (head_app _ _ _
        (head_app _ _ _ h))))
  refine ⟨?_, ?_, ?_, by decide, ?_⟩
  · intro bm m
    cases bm with
    | none => exact Or.inl rfl
    | some bml =>
      simp only [momChangeStr]
      by_cases hemp : bml.isEmpty
      · rw [if_pos hemp]
        exact Or.inl rfl
      · rw [if_neg hemp]
        by_cases hm : m ∈ bml.map (fun p => p.1)
        · rw [if_pos hm]
          cases hpl : _prev_month_label (bml.map (fun p => p.1)) m with
          | none =>
            exact Or.inr (Or.inl rfl)
          | some pl =>
            dsimp only
            by_cases hplm : pl ∈ bml.map (fun p => p.1)
            · rw [if_pos hplm]
              dsimp only
              by_cases hpos : 0 < lookupCount bml pl
              · rw [if_pos hpos]
                exact Or.inr (Or.inr (Or.inr
                  ⟨lookupCount bml m, lookupCount bml pl, pl, hpos, rfl⟩))
              · rw [if_neg hpos]
                exact Or.inr (Or.inr (Or.inl rfl))
            · rw [if_neg hplm]
              exact Or.inr (Or.inl rfl)
        · rw [if_neg hm]
          cases hpl : _prev_month_label (bml.map (fun p => p.1)) m with
          | none => exact Or.inl rfl
          | some pl => exact Or.inl rfl
  · intro c p pl heq
    have h : (momDeltaPhrase c p pl).data.head? = momInfPhrase.data.head? := by
      rw [heq]
    rcases hdelta_head c p pl with hh | hh <;> rw [hh] at h <;> revert h <;>
      decide
  · intro c p pl heq
    have h : (momDeltaPhrase c p pl).data.head? = momNAPhrase.data.head? := by
      rw [heq]
    rcases hdelta_head c p pl with hh | hh <;> rw [hh] at h <;> revert h <;>
      decide
  · intro p pl
    simp only [momDeltaPhrase]
    have hd : ((p : ℚ) - (p : ℚ)) * 100 / (p : ℚ) = 0 := by
      simp
    rw [hd]
    have hsz : fmtSigned1f 0 = "+0.0" := by
      unfold fmtSigned1f fmt1fMag
      rw [if_neg (lt_irrefl (0 : ℚ)), abs_zero, zero_mul, roundHalfEven_zero]
      rfl
    rw [hsz, if_neg (lt_irrefl (0 : ℚ))]
    rw [if_neg (by norm_num : ¬ ((0 : ℚ) < 0))]
    rfl

/-! ## C7: the "no data" sentence -/

/-- C7.  Whenever the requested month has no matching rows — including
when the annotated table is absent or entirely empty — the narrative is the
single sentence naming the month, never the empty string (and, being a
total function, never an exception). -/
theorem no_data_sentence (summary : SummaryInput) (m : String)
    (h : scopeRows summary m = []) :
    generate_summary_text summary m = "No data available for " ++ m ++ "."
    ∧ generate_summary_text summary m ≠ ""
    ∧ m.data <:+: (generate_summary_text summary m).data := by
  obtain ⟨sraw, sbm⟩ := summary
  have hmain : generate_summary_text ⟨sraw, sbm⟩ m
      = "No data available for " ++ m ++ "." := by
    cases sraw with
    | none => rfl
    | some raw =>
      have hsub : subOf raw m = [] := h
      by_cases hr : raw.rows.isEmpty
      · simp only [generate_summary_text]
        rw [if_pos hr]
      · simp only [generate_summary_text]
        rw [if_neg hr, if_pos (List.isEmpty_iff.mpr hsub)]
  refine ⟨hmain, ?_, ?_⟩
  · rw [hmain]
    intro he
    have hlen := congrArg String.length he
    rw [String.length_append, String.length_append] at hlen
    have h1 : ("No data available for ").length = 22 := rfl
    have h2 : (".").length = 1 := rfl
    have h3 : ("").length = 0 := rfl
    rw [h1, h2, h3] at hlen
    omega
  · rw [hmain]
    refine ⟨"No data available for ".data, ".".data, ?_⟩
    rw [String.data_append, String.data_append]

/-- C7, witness: a summary whose only row is in DEC2025, asked about
JAN2099, yields exactly the no-data sentence. -/
theorem no_data_sentence_witness :
    generate_summary_text
        ⟨some ⟨[(⟨"DEC2025", Cell.na, Cell.na, Cell.na, none, none, none⟩,
          "Other")], true, true, true, true, true⟩, none⟩ "JAN2099"
        = "No data available for JAN2099."
    ∧ generate_summary_text
        ⟨some ⟨[(⟨"DEC2025", Cell.na, Cell.na, Cell.na, none, none, none⟩,
          "Other")], true, true, true, true, true⟩, none⟩ "JAN2099" ≠ ""
    ∧ "JAN2099".data <:+: (generate_summary_text
        ⟨some ⟨[(⟨"DEC2025", Cell.na, Cell.na, Cell.na, none, none, none⟩,
          "Other")], true, true, true, true, true⟩, none⟩ "JAN2099").data :=
  no_data_sentence _ "JAN2099" (by decide)

/-! ## C10: the Recommendations line is always present for a non-empty month -/

theorem bump_ne_nil [DecidableEq α] (acc : List (α × ℕ)) (x : α) :
    bump acc x ≠ [] := by
  unfold bump
  by_cases hx : acc.any (fun p => decide (p.1 = x)) = true
  · rw [if_pos hx]
    intro hc
    rw [List.map_eq_nil_iff] at hc
    subst hc
    simp at hx
  · rw [if_neg hx]
    simp

theorem foldl_bump_ne_nil [DecidableEq α] (l : List α) :
    ∀ acc : List (α × ℕ), acc ≠ [] → l.foldl bump acc ≠ [] := by
  induction l with
  | nil =>
    intro acc h
    simpa using h
  | cons x xs ih =>
    intro acc _
    rw [List.foldl_cons]
    exact ih _ (bump_ne_nil acc x)

theorem tally_ne_nil [DecidableEq α] (l : List α) (h : l ≠ []) :
    tally l ≠ [] := by
  cases l with
  | nil => cases h rfl
  | cons x xs =>
    unfold tally
    rw [List.foldl_cons]
    exact foldl_bump_ne_nil xs _ (bump_ne_nil [] x)

theorem valueCounts_ne_nil [DecidableEq α] (l : List α) (h : l ≠ []) :
    valueCounts l ≠ [] := by
  intro hc
  have hperm := perm_sortBy (fun a b : α × ℕ => decide (b.2 ≤ a.2)) (tally l)
  rw [valueCounts] at hc
  rw [hc] at hperm
  exact tally_ne_nil l h (hperm.symm.eq_nil)

theorem joinBy_data_infix (sep : String) (l : List String) (x : String)
    (h : x ∈ l) : x.data <:+: (joinBy sep l).data := by
  induction l with
  | nil => cases h
  | cons a as ih =>
    cases as with
    | nil =>
      rw [List.mem_singleton.mp h]
      exact List.infix_refl _
    | cons b bs =>
      rcases List.mem_cons.mp h with rfl | hmem
      · refine ⟨[], sep.data ++ (joinBy sep (b :: bs)).data, ?_⟩
        simp only [joinBy, String.data_append, List.nil_append,
          List.append_assoc]
      · have hi := ih hmem
        have hsuf : (joinBy sep (b :: bs)).data
            <:+ (joinBy sep (a :: b :: bs)).data := by
          refine ⟨a.data ++ sep.data, ?_⟩
          simp only [joinBy, String.data_append, List.append_assoc]
        exact hi.trans hsuf.isInfix

theorem summaryParts_reco_line (raw : AnnFrame)
    (bm : Option (List (String × ℕ))) (m : String)
    (h : subOf raw m ≠ []) :
    "• Recommendations: " ++ joinBy " "
        (buildRecos (valueCounts (issueTypeListOf raw m))
          (closure_rate_calc
            (lookupCount (valueCounts (statusListOf raw m)) "Closed")
            (subOf raw m).length)
          (peakBlock raw m).1)
      ∈ summaryParts raw bm m := by
  have hlist : issueTypeListOf raw m ≠ [] := by
    unfold issueTypeListOf
    by_cases hit : raw.hasIssueType
    · rw [if_pos hit]
      intro hc
      rw [List.map_eq_nil_iff] at hc
      exact h hc
    · rw [if_neg hit]
      intro hc
      rw [List.map_eq_nil_iff] at hc
      exact h hc
  have hbit : valueCounts (issueTypeListOf raw m) ≠ [] :=
    valueCounts_ne_nil _ hlist
  have hne : ¬ ((valueCounts (issueTypeListOf raw m)).isEmpty = true) :=
    fun hx => hbit (List.isEmpty_iff.mp hx)
  have hrne : buildRecos (valueCounts (issueTypeListOf raw m))
      (closure_rate_calc
        (lookupCount (valueCounts (statusListOf raw m)) "Closed")
        (subOf raw m).length)
      (peakBlock raw m).1 ≠ [] := by
    unfold buildRecos
    rw [if_neg hne]
    simp
  simp only [summaryParts]
  rw [if_neg (fun hx => hrne (List.isEmpty_iff.mp hx))]
  simp

/-- C10.  For every requested month with at least one matching row, the
narrative's parts always include a Recommendations line (the dominant
issue-type recommendation is produced unconditionally for a non-empty
month), and the rendered text contains `• Recommendations: ` as a
substring. -/
theorem recommendations_always_present (raw : AnnFrame)
    (bm : Option (List (String × ℕ))) (m : String)
    (h : subOf raw m ≠ []) :
    (∃ rest, "• Recommendations: " ++ rest ∈ summaryParts raw bm m)
    ∧ "• Recommendations: ".data <:+:
        (generate_summary_text ⟨some raw, bm⟩ m).data := by
  have hmem := summaryParts_reco_line raw bm m h
  refine ⟨⟨_, hmem⟩, ?_⟩
  have hrows : ¬ (raw.rows.isEmpty = true) := by
    intro hx
    apply h
    unfold subOf
    rw [List.isEmpty_iff.mp hx]
    rfl
  have hsubE : ¬ ((subOf raw m).isEmpty = true) :=
    fun hx => h (List.isEmpty_iff.mp hx)
  have hgen : generate_summary_text ⟨some raw, bm⟩ m
      = joinBy "\n" (summaryParts raw bm m) := by
    simp only [generate_summary_text]
    rw [if_neg hrows, if_neg hsubE]
  rw [hgen]
  have hline := joinBy_data_infix "\n" _ _ hmem
  have hpre : "• Recommendations: ".data <:+:
      ("• Recommendations: " ++ joinBy " "
        (buildRecos (valueCounts (issueTypeListOf raw m))
          (closure_rate_calc
            (lookupCount (valueCounts (statusListOf raw m)) "Closed")
            (subOf raw m).length)
          (peakBlock raw m).1)).data := by
    refine ⟨[], (joinBy " "
      (buildRecos (valueCounts (issueTypeListOf raw m))
        (closure_rate_calc
          (lookupCount (valueCounts (statusListOf raw m)) "Closed")
          (subOf raw m).length)
        (peakBlock raw m).1)).data, ?_⟩
    rw [String.data_append]
    simp
  exact hpre.trans hline

/-- C10, witness: a one-row DEC2025 month yields a parts list containing a
Recommendations line, visible in the rendered text. -/
theorem recommendations_always_present_witness :
    (∃ rest, "• Recommendations: " ++ rest ∈ summaryParts
        ⟨[(⟨"DEC2025", Cell.str "citrix down", Cell.str "Closed", Cell.na,
          none, none, none⟩, "Citrix")], true, true, true, true, true⟩
        (some [("DEC2025", 1)]) "DEC2025")
    ∧ "• Recommendations: ".data <:+:
        (generate_summary_text
          ⟨some ⟨[(⟨"DEC2025", Cell.str "citrix down", Cell.str "Closed",
            Cell.na, none, none, none⟩, "Citrix")], true, true, true, true,
            true⟩, some [("DEC2025", 1)]⟩ "DEC2025").data :=
  recommendations_always_present
    ⟨[(⟨"DEC2025", Cell.str "citrix down", Cell.str "Closed", Cell.na,
      none, none, none⟩, "Citrix")], true, true, true, true, true⟩
    (some [("DEC2025", 1)]) "DEC2025" (by decide)

end GenSight
